import Mathlib

/-!
Verification of the os8fs package (OS/8 filesystem images for the PDP-8).

The Go source is shallowly embedded: 12-bit words live in `Nat` with the
`uint16` container modelled by explicit `% 65536`, bytes by `% 256`, and the
PDP-8 negated-count idiom `0o10000 - n` (computed in `uint16` arithmetic in
the source) by `neg16`.  A disk side is a list of blocks, each block the list
of 256 words that `raw2words` yields for its 512 bytes; Go `int` quantities
that can go negative (block cursors, side indices) live in `Int`.  The
directory scanner's unbounded `for` loop over chained directory blocks is
modelled with explicit fuel; exhausting the fuel yields the distinguished
outcome `Out.hang`, so `Out.done`/`Out.fail` faithfully report exactly the
terminating behaviours of the source, and a run-time index-out-of-range
panic of the Go runtime is the outcome `Out.crash`.  Error strings keep the
identifying prefix of the corresponding `fmt.Errorf` format without the
formatted arguments.
-/

namespace OS8

/-- Outcome of an embedded operation: normal result, error return,
non-termination of a source-level loop, or a Go runtime panic. -/
inductive Out (α : Type) where
  | done : α → Out α
  | fail : String → Out α
  | hang : Out α
  | crash : Out α
deriving DecidableEq

/-- Apply `f` to a normal result, propagating errors, divergence and
panics unchanged. -/
def Out.map {α β : Type} (f : α → β) : Out α → Out β
  | .done a => .done (f a)
  | .fail e => .fail e
  | .hang => .hang
  | .crash => .crash

/-- Words of a disk image, from its raw bytes: word `i` is
`raw[2*i] | raw[2*i+1]<<8` (uint16 arithmetic on byte operands); a trailing
odd byte is dropped (`len(raw)/2` words).  From `raw2words` in the source. -/
def raw2words : List Nat → List Nat
  | b0 :: b1 :: rest => (b0 % 256 + 256 * (b1 % 256)) :: raw2words rest
  | _ => []

/-- Raw bytes of a word sequence: word `w` becomes `byte(w)` then
`byte(w >> 8)` — note the source does not mask the upper nibble.
From `words2raw` in the source. -/
def words2raw : List Nat → List Nat
  | w :: rest => w % 256 :: w % 65536 / 256 :: words2raw rest
  | [] => []

/-- A byte sequence of even length whose bytes are in range and whose every
second byte has a zero top nibble (the shape `words2raw` emits for 12-bit
words). -/
def rawWF : List Nat → Bool
  | [] => true
  | [_] => false
  | b0 :: b1 :: rest => b0 < 256 && b1 < 16 && rawWF rest

/-- `ASCII6` from the source: the two 6-bit characters of a word, each value
below 32 remapped by adding 64 (so 0 prints as the `@` padding byte). -/
def ASCII6 (w : Nat) : Nat × Nat :=
  let a0 := w / 64 % 64
  let a1 := w % 64
  (if a0 < 32 then a0 + 64 else a0, if a1 < 32 then a1 + 64 else a1)

/-- Characters contributed by the three base-name words of a directory
entry: 6-bit pairs emitted until an `@` is encountered.  This is the loop
over `f.name[:3]` in `fileEntry.Name`. -/
def baseChars : List Nat → List Char
  | [] => []
  | w :: rest =>
    let a := ASCII6 w
    if a.1 = 64 then []
    else Char.ofNat a.1 :: (if a.2 = 64 then [] else Char.ofNat a.2 :: baseChars rest)

/-- `fileEntry.Name` from the source: base name from the first three words,
then, when the fourth word's first character is not `@`, a dot and up to two
extension characters. -/
def entryName (w0 w1 w2 w3 : Nat) : String :=
  let base := baseChars [w0, w1, w2]
  let a := ASCII6 w3
  let ext := if a.1 = 64 then [] else '.' :: Char.ofNat a.1 :: (if a.2 = 64 then [] else [Char.ofNat a.2])
  ⟨base ++ ext⟩

/-- The `uint16` computation `0o10000 - v` (both the entry counts and the
lengths stored in directory blocks use this negated encoding). -/
def neg16 (v : Nat) : Nat := (4096 + 65536 - v % 65536) % 65536

/-- Reading word `i` of a block: the words slice holds `uint16` values. -/
def getW (ws : List Nat) (i : Nat) : Nat := ws.getD i 0 % 65536

/-- One side of a disk image: its `nblocks` blocks, each the 256-word image
of 512 bytes under `raw2words`. -/
abbrev Disk := List (List Nat)

/-- The data `scan` hands to its callback for one directory entry: directory
block index, word offset of the entry in that block, first data block,
size in blocks, and — for a 6-word file entry — name and date word.
`size` and `block0` are Go `int`s (a corrupt length word makes `e.Len()`
negative). -/
structure ScanRec where
  index : Nat
  loc : Nat
  block0 : Int
  size : Int
  fname : Option (String × Nat)
deriving DecidableEq

/-- `FileInfo` from the source (date kept as its raw word). -/
structure FileInfo where
  name : String
  date : Nat
  size : Int
  offset : Int
deriving DecidableEq

/-- The `FileInfo` a scan record contributes to `List` (free extents
contribute nothing). -/
def fileInfoOf (r : ScanRec) : Option FileInfo :=
  match r.fname with
  | some nd => some ⟨nd.1, nd.2, r.size, r.block0⟩
  | none => none

/-- The entry loop of `FileSystem.scan` inside one directory block: `n`
entries remain, the next is at word offset `loc`, and `b0` is the running
data-block cursor.  A 2-word entry starting with 0 is a free extent and is
yielded without any range check; otherwise six words form a file entry,
checked against `nblocks` before being yielded. -/
def walkEntries (nblocks : Int) (index : Nat) (ws : List Nat) :
    Nat → Nat → Int → Out (List ScanRec)
  | 0, _, _ => .done []
  | n + 1, loc, b0 =>
    if getW ws loc = 0 then
      let sz : Int := (neg16 (getW ws (loc + 1)) : Int)
      (walkEntries nblocks index ws n (loc + 2) (b0 + sz)).map
        (fun rs => ⟨index, loc, b0, sz, none⟩ :: rs)
    else
      let sz : Int := 4096 - (getW ws (loc + 5) : Int)
      if b0 + sz > nblocks then .fail ("corrupt directory, block out of range")
      else
        (walkEntries nblocks index ws n (loc + 6) (b0 + sz)).map
          (fun rs => ⟨index, loc, b0, sz,
            some (entryName (getW ws loc) (getW ws (loc + 1)) (getW ws (loc + 2))
                (getW ws (loc + 3)),
              getW ws (loc + 4))⟩ :: rs)

/-- The directory-block loop of `FileSystem.scan`, collecting every yielded
record.  The source's `for index := 1; index != 0; index = int(block.next)`
has no bound on the number of blocks visited, so the recursion carries fuel
and reports `hang` when the source would still be looping. -/
def scanChain (disk : Disk) : Nat → Nat → Out (List ScanRec)
  | 0, _ => .hang
  | fuel + 1, index =>
    if index = 0 then .done []
    else if index + 1 > disk.length then .fail ("getBlocks: block out of range")
    else
      let ws := disk.getD index []
      let nf := neg16 (getW ws 0)
      if nf > 40 then .fail ("too many entries")
      else
        match walkEntries disk.length index ws nf 5 (getW ws 1 : Int) with
        | .done rs => (scanChain disk fuel (getW ws 2)).map (fun rs2 => rs ++ rs2)
        | .fail e => .fail e
        | .hang => .hang
        | .crash => .crash

/-- The entry loop as driven by the `File`/`Remove` callback: free extents
and non-matching names continue the scan, the first file entry whose decoded
name equals `target` is returned, and the out-of-range check still precedes
the callback. -/
def walkFind (nblocks : Int) (index : Nat) (ws : List Nat) (target : String) :
    Nat → Nat → Int → Out (Option ScanRec)
  | 0, _, _ => .done none
  | n + 1, loc, b0 =>
    if getW ws loc = 0 then
      walkFind nblocks index ws target n (loc + 2) (b0 + (neg16 (getW ws (loc + 1)) : Int))
    else
      let sz : Int := 4096 - (getW ws (loc + 5) : Int)
      if b0 + sz > nblocks then .fail ("corrupt directory, block out of range")
      else if entryName (getW ws loc) (getW ws (loc + 1)) (getW ws (loc + 2))
          (getW ws (loc + 3)) = target then
        .done (some ⟨index, loc, b0, sz,
          some (entryName (getW ws loc) (getW ws (loc + 1)) (getW ws (loc + 2))
              (getW ws (loc + 3)),
            getW ws (loc + 4))⟩)
      else walkFind nblocks index ws target n (loc + 6) (b0 + sz)

/-- The block loop of `scan` as driven by the `File`/`Remove` callback:
stop with the first matching record (`stopReading`), or walk the whole
chain and report no match. -/
def findChain (disk : Disk) (target : String) : Nat → Nat → Out (Option ScanRec)
  | 0, _ => .hang
  | fuel + 1, index =>
    if index = 0 then .done none
    else if index + 1 > disk.length then .fail ("getBlocks: block out of range")
    else
      let ws := disk.getD index []
      let nf := neg16 (getW ws 0)
      if nf > 40 then .fail ("too many entries")
      else
        match walkFind disk.length index ws target nf 5 (getW ws 1 : Int) with
        | .done (some r) => .done (some r)
        | .done none => findChain disk target fuel (getW ws 2)
        | .fail e => .fail e
        | .hang => .hang
        | .crash => .crash

/-- `strings.ToUpper` restricted to ASCII input (OS/8 names are ASCII). -/
def toUpperStr (s : String) : String :=
  ⟨s.data.map (fun c => if 'a' ≤ c ∧ c ≤ 'z' then Char.ofNat (c.toNat - 32) else c)⟩

/-- Go's `copy(w[loc+2:], w[loc+6:])` on a word slice: `len(w) - loc - 6`
words are copied, so the final four words keep their old values (and a
`loc + 6` beyond the slice copies nothing). -/
def spliceTail (w : List Nat) (loc : Nat) : List Nat :=
  w.take (loc + 2) ++ w.drop (loc + 6) ++ w.drop (loc + 2 + (w.length - (loc + 6)))

/-- The in-place rewrite `Remove` performs on the directory block of the
matched entry: word `loc` becomes 0, word `loc+1` becomes
`uint16(0o10000 - size)` (`%` on `Int` is Euclidean, matching the Go
two's-complement conversion), then the tail is slid up by `copy`. -/
def removeRewrite (words : List Nat) (loc : Nat) (size : Int) : List Nat :=
  spliceTail ((words.set loc 0).set (loc + 1) (((4096 - size) % 65536).toNat)) loc

/-- Store `cnt` 256-word chunks of `ws` as consecutive blocks. -/
def setChunks : Disk → Nat → Nat → List Nat → Disk
  | disk, _, 0, _ => disk
  | disk, start, c + 1, ws => setChunks (disk.set start (ws.take 256)) (start + 1) c (ws.drop 256)

/-- `FileSystem.writeBlocks`: empty writes succeed vacuously, the word count
must be a whole number of blocks, and the range must fit in the filesystem;
then the blocks are stored. -/
def writeBlocksFS (disk : Disk) (start : Nat) (ws : List Nat) : Out Disk :=
  if ws.length = 0 then .done disk
  else if ws.length % 256 ≠ 0 then .fail ("writeBlocks: invalid block size")
  else if start + ws.length / 256 > disk.length then .fail ("writeBlocks: block out of range")
  else .done (setChunks disk start (ws.length / 256) ws)

/-- `FileSystem.Remove`: uppercase the name, scan for the first matching
file entry, rewrite its directory block and write that block back; report
"file not found" when the scan completes without a match. -/
def removeFS (disk : Disk) (fuel : Nat) (name0 : String) : Out Disk :=
  let name := toUpperStr name0
  match findChain disk name fuel 1 with
  | .done (some r) =>
    writeBlocksFS disk r.index (removeRewrite (disk.getD r.index []) r.loc r.size)
  | .done none => .fail ("file not found")
  | .fail e => .fail e
  | .hang => .hang
  | .crash => .crash

/-- `FileSystem.List`: scan everything, keeping one `FileInfo` per file
entry. -/
def listFS (disk : Disk) (fuel : Nat) : Out (List FileInfo) :=
  match scanChain disk fuel 1 with
  | .done rs => .done (rs.filterMap fileInfoOf)
  | .fail e => .fail e
  | .hang => .hang
  | .crash => .crash

/-- Every block of the side holds exactly 256 words (what `getBlocks`
returns for the 512 bytes of a block). -/
abbrev BlocksWF (disk : Disk) : Prop := ∀ b ∈ disk, b.length = 256

/-- A drive geometry, as in the source (`Tracks`, `Sectors`, `SectorSize`,
`Bytes` per side, `Sides`). -/
structure Drive where
  tracks : Int
  sectors : Int
  sectorSize : Int
  bytes : Int
  sides : Int
deriving DecidableEq

/-- The RK05 drive geometry from the source. -/
def RK05 : Drive := ⟨204, 16, 256, 1662976, 2⟩

/-- The RX01 drive geometry from the source. -/
def RX01 : Drive := ⟨77, 26, 64, 256256, 1⟩

/-- The RX02 drive geometry from the source. -/
def RX02 : Drive := ⟨77, 26, 128, 512512, 1⟩

/-- The side-count loop of `Drive.OpenImage` exactly as written:
`for d.Bytes*d.Sides < int(fi.Size()) { d.Sides-- }`.  When the condition
holds initially the loop never exits for non-negative operands; the fuel
models that as `hang`. -/
def shrinkSides : Nat → Int → Int → Int → Out Int
  | 0, _, _, _ => .hang
  | f + 1, bytes, sides, size =>
    if bytes * sides < size then shrinkSides f bytes (sides - 1) size else .done sides

/-- The geometry portion of `Drive.OpenImage` after `Stat`: default the side
count, infer `Bytes` from the file size, reject truncated images, run the
side-count loop, then read `Bytes*Sides` bytes with `io.ReadFull`, which
fails when the file is shorter than that.  Returns the final
`(Bytes, Sides)`.  (Go `int` division truncates; the operands here are
non-negative, where it agrees with `Int./`.) -/
def openSizing (fuel : Nat) (d : Drive) (size : Int) : Out (Int × Int) :=
  let sides0 := if d.sides = 0 then 1 else d.sides
  let bytes := if d.bytes = 0 then size / sides0 else d.bytes
  if bytes > size then .fail ("truncated image")
  else
    match shrinkSides fuel bytes sides0 size with
    | .done sides =>
      if bytes * sides > size then .fail ("unexpected EOF") else .done (bytes, sides)
    | .fail e => .fail e
    | .hang => .hang
    | .crash => .crash

/-- `Disk.getFS`: names of byte length at least 3 whose second byte is `:`
select the side `(name[0] | 0x20) - 97`; an index that is negative or
greater than the side count yields the "side not found" error, but the
bounds check accepts `n = len(sides)` and the subsequent `d.sides[n]`
indexing then panics.  ASCII names are assumed, where Go's byte indexing
and `List Char` agree. -/
def getFS (sides : List Disk) (name : String) : Out (Disk × String) :=
  match name.data with
  | c0 :: c1 :: c2 :: rest =>
    if c1 = ':' then
      let n : Int := (((c0.toNat % 256) ||| 32 : Nat) : Int) - 97
      if n < 0 ∨ n > sides.length then .fail ("side not found: " ++ name)
      else
        match sides.get? n.toNat with
        | some fs => .done (fs, ⟨c2 :: rest⟩)
        | none => .crash
    else
      match sides.get? 0 with
      | some fs => .done (fs, name)
      | none => .crash
  | _ =>
    match sides.get? 0 with
    | some fs => .done (fs, name)
    | none => .crash

/-- `Disk.Remove`: resolve the side prefix, then remove on that side. -/
def diskRemove (sides : List Disk) (fuel : Nat) (name : String) : Out Disk :=
  match getFS sides name with
  | .done (fs, rest) => removeFS fs fuel rest
  | .fail e => .fail e
  | .hang => .hang
  | .crash => .crash

/-- Association-list lookup modelling the `drives` map keyed by absolute
path. -/
def lookupReg (reg : List (String × Nat)) (p : String) : Option Nat :=
  match reg with
  | [] => none
  | (k, v) :: rest => if k = p then some v else lookupReg rest p

/-- `Drive.OpenImage` around the process-wide registry.  `abs2` stands for
`filepath.Abs`, `fsize` for `os.Open`+`Stat` (`none` when the open fails),
`defImg` for `DefaultImage`, and `fresh` for the address of a newly built
`Disk`.  The result carries the handle, the registry afterwards, and
whether the file was (re)opened.  The `rw` flag only selects the open mode
in the source and is otherwise unused. -/
def openImageReg (abs2 : String → String) (fsize : String → Option Int) (defImg : String)
    (fresh : Nat) (fuel : Nat) (reg : List (String × Nat)) (d : Drive) (path : String)
    (_rw : Bool) : Out (Nat × List (String × Nat) × Bool) :=
  let p0 := if path = "" then defImg else path
  if p0 = "" then .fail ("no path to drive")
  else
    let p := abs2 p0
    match lookupReg reg p with
    | some h => .done (h, reg, false)
    | none =>
      match fsize p with
      | none => .fail ("open failed")
      | some size =>
        match openSizing fuel d size with
        | .done _ => .done (fresh, (p, fresh) :: reg, true)
        | .fail e => .fail e
        | .hang => .hang
        | .crash => .crash

/-- A block of 256 zero words. -/
def zeros256 : List Nat := List.replicate 256 0

/-- A directory block whose header says "no entries, next directory block
is block 1": scanning it revisits block 1 forever. -/
def cycBlock : List Nat := [4096, 0, 1, 0, 0] ++ List.replicate 251 0

/-- A two-block image whose directory chain is the cycle 1 → 1. -/
def cycDisk : Disk := [zeros256, cycBlock]

/-- A two-block image whose single directory entry is a free extent of 8
blocks — far beyond the 2 blocks of the filesystem. -/
def oversizeFreeDisk : Disk :=
  [zeros256, [4095, 0, 0, 0, 0, 0, 4088] ++ List.replicate 249 0]

/-- A six-block image: boot block, one directory block holding the file
`AB` (2 blocks at 3) and the file `CD` (1 block at 5), and four data
blocks. -/
def twoFileDisk : Disk :=
  [zeros256,
   [4094, 3, 0, 0, 0, 66, 0, 0, 0, 0, 4094, 196, 0, 0, 0, 0, 4095] ++ List.replicate 239 0,
   zeros256, zeros256, zeros256, zeros256]

/-- A five-block image holding two one-block files that are both named
`AB`. -/
def dupNameDisk : Disk :=
  [zeros256,
   [4094, 3, 0, 0, 0, 66, 0, 0, 0, 0, 4095, 66, 0, 0, 0, 0, 4095] ++ List.replicate 239 0,
   zeros256, zeros256, zeros256]

/-- The image `dupNameDisk` after removing `AB` (first match rewritten). -/
def dupNameDisk2 : Disk :=
  match removeFS dupNameDisk 4 ("AB") with
  | .done d2 => d2
  | _ => []

/-- The image `twoFileDisk` after removing `AB`. -/
def twoFileDiskAfter : Disk :=
  match removeFS twoFileDisk 4 ("AB") with
  | .done d2 => d2
  | _ => []

/-- The "next directory block" word of block `i`. -/
def chainNextIdx (disk : Disk) (i : Nat) : Nat := getW (disk.getD i []) 2

/-- One step of the directory-block chain, absorbing at the terminator 0. -/
def gstep (disk : Disk) (i : Nat) : Nat := if i = 0 then 0 else chainNextIdx disk i

/-- `n`-fold iteration of `g`. -/
def iterN (g : Nat → Nat) : Nat → Nat → Nat
  | 0, x => x
  | n + 1, x => iterN g n (g x)

/-- Whether the chain starting at `j` reaches block `b` within `f` steps
before reaching the terminator 0. -/
def chainMem (disk : Disk) : Nat → Nat → Nat → Bool
  | 0, _, _ => false
  | f + 1, j, b => if j = 0 then false else (j == b) || chainMem disk f (gstep disk j) b

/-- A scan record as re-read after the four-word slide of `Remove`: only
the in-block offset moves. -/
def shiftRec (q : ScanRec) : ScanRec := ⟨q.index, q.loc - 4, q.block0, q.size, q.fname⟩

/-- Drop the first entry carrying name `t` from a listing. -/
def eraseNamed (t : String) : List FileInfo → List FileInfo
  | [] => []
  | fi :: rest => if fi.name = t then rest else fi :: eraseNamed t rest

/-- How many entries of a listing carry name `t`. -/
def countNamed (t : String) (l : List FileInfo) : Nat :=
  (l.filter (fun fi => fi.name = t)).length

end OS8

namespace OS8

/-- Claim C3: the codec round-trips: `words2raw (raw2words b) = b` for every
even-length byte sequence whose every second byte has a zero top nibble, and
`raw2words (words2raw w) = w` for every word sequence with all words below
`0o10000`. -/
theorem claim3_codec_roundtrip :
    (∀ raw : List Nat, rawWF raw = true → words2raw (raw2words raw) = raw) ∧
    (∀ ws : List Nat, (∀ w ∈ ws, w < 4096) → raw2words (words2raw ws) = ws) := by
  constructor
  · intro raw
    induction raw using rawWF.induct with
    | case1 => intro _; rfl
    | case2 b => intro h; simp [rawWF] at h
    | case3 b0 b1 rest ih =>
      intro h
      simp only [rawWF, Bool.and_eq_true, decide_eq_true_eq] at h
      obtain ⟨⟨h0, h1⟩, hr⟩ := h
      simp only [raw2words, words2raw, ih hr, List.cons.injEq, and_true]
      omega
  · intro ws
    induction ws with
    | nil => intro _; rfl
    | cons w rest ih =>
      intro h
      have hw : w < 4096 := h w (List.mem_cons_self w rest)
      have hr : ∀ x ∈ rest, x < 4096 := fun x hx => h x (List.mem_cons_of_mem w hx)
      simp only [words2raw, raw2words, ih hr, List.cons.injEq, and_true]
      omega

/-- Witness for claim C3 at concrete inputs. -/
theorem claim3_codec_roundtrip_witness :
    words2raw (raw2words [65, 15]) = [65, 15] ∧ raw2words (words2raw [2049]) = [2049] :=
  ⟨claim3_codec_roundtrip.1 [65, 15] (by decide),
   claim3_codec_roundtrip.2 [2049] (by decide)⟩

/-- Counterexample to claim C4 as stated: `raw2words` preserves a nonzero top
nibble of a high input byte (word `0xFF00` has bits at and above bit 12 set),
and `words2raw [0o10000]` writes high byte 16, whose top nibble is not zero;
the source converts with `byte(w >> 8)` and never masks. -/
theorem claim4_counterexample :
    (¬ ∀ raw : List Nat, ∀ w ∈ raw2words raw, w < 4096) ∧
    (¬ ∀ ws : List Nat, ∀ i : Nat, (words2raw ws).getD (2 * i + 1) 0 < 16) := by
  constructor
  · intro h
    exact absurd (h [0, 255] 65280 (by decide)) (by decide)
  · intro h
    exact absurd (h [4096] 0) (by decide)

/-- Claim C4 as amended: the 12-bit well-formedness of the codec outputs
holds under the input conditions the on-disk format guarantees — every
second input byte with zero top nibble for `raw2words`, and every word below
`0o10000` for `words2raw`. -/
theorem claim4_codec_wellformed :
    (∀ raw : List Nat, (∀ i : Nat, raw.getD (2 * i + 1) 0 < 16) →
      ∀ w ∈ raw2words raw, w < 4096) ∧
    (∀ ws : List Nat, (∀ w ∈ ws, w < 4096) →
      ∀ i : Nat, (words2raw ws).getD (2 * i + 1) 0 < 16) := by
  constructor
  · intro raw
    induction raw using raw2words.induct with
    | case1 b0 b1 rest ih =>
      intro h w hw
      simp only [raw2words, List.mem_cons] at hw
      rcases hw with hw | hw
      · have hb1 : b1 < 16 := by have := h 0; simpa using this
        subst hw
        have : b1 % 256 = b1 := Nat.mod_eq_of_lt (by omega)
        omega
      · exact ih (fun i => by have := h (i + 1); simpa [Nat.mul_add] using this) w hw
    | case2 raw h =>
      intro _ w hw
      rcases raw with _ | ⟨b, _ | ⟨c, t⟩⟩
      · simp [raw2words] at hw
      · simp [raw2words] at hw
      · exact absurd rfl (h b c t)
  · intro ws
    induction ws with
    | nil => intro _ i; simp [words2raw]
    | cons w rest ih =>
      intro h i
      have hw : w < 4096 := h w (List.mem_cons_self w rest)
      have hr : ∀ x ∈ rest, x < 4096 := fun x hx => h x (List.mem_cons_of_mem w hx)
      match i with
      | 0 =>
        have : w % 65536 = w := Nat.mod_eq_of_lt (by omega)
        simp only [words2raw, this, Nat.mul_zero, Nat.zero_add, List.getD_cons_succ,
          List.getD_cons_zero]
        omega
      | i + 1 =>
        have := ih hr i
        simpa [words2raw, Nat.mul_add] using this

/-- Witness for the amended claim C4 at concrete inputs. -/
theorem claim4_codec_wellformed_witness :
    (∀ w ∈ raw2words [65, 15], w < 4096) ∧
    (∀ i : Nat, (words2raw [2049]).getD (2 * i + 1) 0 < 16) :=
  ⟨claim4_codec_wellformed.1 [65, 15] (by
      intro i
      match i with
      | 0 => decide
      | i + 1 =>
        rw [List.getD_eq_default]
        · decide
        · simp
          omega),
   claim4_codec_wellformed.2 [2049] (by decide)⟩

/-- Counterexample to claim C9 as stated: the name-field words
`01616, 01505, 00000, 00717` decode to `NNME.GO` (the first word `01616`
holds the pair `NN`), not to `NAME.GO`. -/
theorem claim9_counterexample :
    entryName 0o1616 0o1505 0 0o717 = ("NNME.GO") ∧
    entryName 0o1616 0o1505 0 0o717 ≠ ("NAME.GO") := by
  constructor
  · decide
  · decide

/-- Claim C9 as amended: the decoder emits 6-bit pairs of the first three
words until an `@`, then a dot and up to two extension characters from the
fourth word; the words for `NAME.GO` are `01601, 01505, 00000, 00717` (as in
the source's package documentation), and they decode to `NAME.GO`. -/
theorem claim9_name_decode : entryName 0o1601 0o1505 0 0o717 = ("NAME.GO") := by
  decide

theorem out_map_done {α β : Type} {f : α → β} {o : Out α} {b : β} :
    o.map f = Out.done b ↔ ∃ a, o = Out.done a ∧ f a = b := by
  cases o <;> simp [Out.map]

/-- Claim C5 is contradicted by the code: the directory-block loop of
`scan` follows `next` pointers with no cap on the number of blocks visited,
so on an image whose block 1 names itself as the next directory block the
scan never terminates — for every amount of fuel it is still running. -/
theorem claim5_scan_cycle_hangs : ∀ fuel : Nat, scanChain cycDisk fuel 1 = Out.hang := by
  intro fuel
  induction fuel with
  | zero => rfl
  | succ f ih =>
    have h : scanChain cycDisk (f + 1) 1 =
        (scanChain cycDisk f 1).map (fun rs2 => ([] : List ScanRec) ++ rs2) := rfl
    rw [h, ih]
    rfl

/-- Counterexample to claim C6 as stated: a 2-word free extent of 8 blocks
on a 2-block filesystem is yielded by the scan without any error — the
cursor check guards only 6-word file entries. -/
theorem claim6_counterexample :
    scanChain oversizeFreeDisk 2 1 = Out.done [⟨1, 5, 0, 8, none⟩] ∧
    oversizeFreeDisk.length = 2 ∧ ((0 : Int) + 8 > 2) := by
  refine ⟨rfl, rfl, by decide⟩

theorem walkEntries_file_bound (nb : Int) (idx : Nat) (ws : List Nat) :
    ∀ (n loc : Nat) (b0 : Int) (rs : List ScanRec),
      walkEntries nb idx ws n loc b0 = Out.done rs →
      ∀ r ∈ rs, r.fname.isSome = true → r.block0 + r.size ≤ nb := by
  intro n
  induction n with
  | zero =>
    intro loc b0 rs h r hr _
    simp only [walkEntries] at h
    cases h
    simp at hr
  | succ n ih =>
    intro loc b0 rs h r hr hf
    simp only [walkEntries] at h
    by_cases h0 : getW ws loc = 0
    · rw [if_pos h0, out_map_done] at h
      obtain ⟨rs2, hrec, hcons⟩ := h
      subst hcons
      rcases List.mem_cons.1 hr with hr0 | hr1
      · subst hr0
        simp at hf
      · exact ih _ _ _ hrec r hr1 hf
    · rw [if_neg h0] at h
      by_cases hchk : b0 + (4096 - (getW ws (loc + 5) : Int)) > nb
      · rw [if_pos hchk] at h
        cases h
      · rw [if_neg hchk, out_map_done] at h
        obtain ⟨rs2, hrec, hcons⟩ := h
        subst hcons
        rcases List.mem_cons.1 hr with hr0 | hr1
        · subst hr0
          exact le_of_not_lt hchk
        · exact ih _ _ _ hrec r hr1 hf

/-- Claim C6 as amended: only 6-word file entries are guarded — whenever
the scan succeeds, every yielded file record lies inside the filesystem
(`block0 + size ≤ nblocks`), the check failing the scan instead; 2-word
free extents are yielded without any such check (see the
counterexample). -/
theorem claim6_file_entries_checked :
    ∀ (disk : Disk) (fuel idx : Nat) (recs : List ScanRec),
      scanChain disk fuel idx = Out.done recs →
      ∀ r ∈ recs, r.fname.isSome = true → r.block0 + r.size ≤ (disk.length : Int) := by
  intro disk fuel
  induction fuel with
  | zero =>
    intro idx recs h
    exact Out.noConfusion h
  | succ f ih =>
    intro idx recs h r hr hf
    simp only [scanChain] at h
    by_cases hidx : idx = 0
    · rw [if_pos hidx] at h
      cases h
      simp at hr
    · rw [if_neg hidx] at h
      by_cases hrange : idx + 1 > disk.length
      · rw [if_pos hrange] at h
        cases h
      · rw [if_neg hrange] at h
        by_cases hnf : neg16 (getW (disk.getD idx []) 0) > 40
        · rw [if_pos hnf] at h
          cases h
        · rw [if_neg hnf] at h
          cases hwalk : walkEntries disk.length idx (disk.getD idx [])
              (neg16 (getW (disk.getD idx []) 0)) 5 (getW (disk.getD idx []) 1 : Int) with
          | done rs =>
            rw [hwalk] at h
            rw [show (match Out.done rs with
                | Out.done rs => (scanChain disk f (getW (disk.getD idx []) 2)).map
                    (fun rs2 => rs ++ rs2)
                | Out.fail e => Out.fail e
                | Out.hang => Out.hang
                | Out.crash => Out.crash) =
              (scanChain disk f (getW (disk.getD idx []) 2)).map (fun rs2 => rs ++ rs2) from rfl,
              out_map_done] at h
            obtain ⟨rs2, hrec, happ⟩ := h
            subst happ
            rcases List.mem_append.1 hr with hr1 | hr2
            · exact walkEntries_file_bound _ _ _ _ _ _ _ hwalk r hr1 hf
            · exact ih _ _ hrec r hr2 hf
          | fail e =>
            rw [hwalk] at h
            cases h
          | hang =>
            rw [hwalk] at h
            cases h
          | crash =>
            rw [hwalk] at h
            cases h

/-- Witness for the amended claim C6 at a concrete image: the file `AB`
(2 blocks at 3) of `twoFileDisk` lies within its 6 blocks. -/
theorem claim6_file_entries_checked_witness :
    (3 : Int) + 2 ≤ (twoFileDisk.length : Int) :=
  claim6_file_entries_checked twoFileDisk 4 1
    [ScanRec.mk 1 5 3 2 (some (("AB"), 0)), ScanRec.mk 1 11 5 1 (some (("CD"), 0))] rfl
    (ScanRec.mk 1 5 3 2 (some (("AB"), 0))) (by decide) (by decide)

/-- Claim C7 is contradicted by the code: the side-shrinking loop's
condition is inverted (`for d.Bytes*d.Sides < size` instead of `> size`),
so an RK05 image of 1,662,976 bytes keeps `Sides = 2` and `io.ReadFull`
then fails instead of the open succeeding with one side; the
3,325,952-byte image still opens with two sides. -/
theorem claim7_rk05_sizing : ∀ f : Nat,
    openSizing (f + 1) RK05 1662976 = Out.fail ("unexpected EOF") ∧
    openSizing (f + 1) RK05 3325952 = Out.done (1662976, 2) := by
  intro f
  have h1 : shrinkSides (f + 1) 1662976 2 1662976 = Out.done 2 := by
    simp only [shrinkSides]
    norm_num
  have h2 : shrinkSides (f + 1) 1662976 2 3325952 = Out.done 2 := by
    simp only [shrinkSides]
    norm_num
  constructor
  · simp only [openSizing, RK05]
    norm_num
    rw [h1]
    norm_num
  · simp only [openSizing, RK05]
    norm_num
    rw [h2]
    norm_num

/-- Claim C8 is contradicted by the code: the side-prefix bounds check in
`getFS` accepts `n = len(sides)` (it rejects only `n > len`), so `C:` on a
two-sided disk panics with an index-out-of-range instead of returning the
side-not-found error; `D:` (strictly beyond) does return the error. -/
theorem claim8_side_overflow_crashes :
    getFS [[], []] ("C:X") = Out.crash ∧
    diskRemove [[], []] 3 ("C:X") = Out.crash ∧
    getFS [[], []] ("D:X") = Out.fail ("side not found: D:X") ∧
    diskRemove [[], []] 3 ("D:X") = Out.fail ("side not found: D:X") := by
  refine ⟨by decide, by decide, by decide, by decide⟩

/-- Claim C10: when the absolute form of the path is already registered,
`Drive.OpenImage` returns the registered handle as is — the registry is
untouched, no file is opened, and both the `rw` flag and the receiver's
geometry are ignored. -/
theorem claim10_registry_hit :
    ∀ (abs2 : String → String) (fsize : String → Option Int) (defImg : String)
      (fresh fuel : Nat) (reg : List (String × Nat)) (d : Drive) (path : String) (rw : Bool)
      (h : Nat), path ≠ ("") → lookupReg reg (abs2 path) = some h →
      openImageReg abs2 fsize defImg fresh fuel reg d path rw = Out.done (h, reg, false) := by
  intro abs2 fsize defImg fresh fuel reg d path rw h hpath hlook
  simp only [openImageReg, if_neg hpath, hlook]

/-- Witness for claim C10: a registered path returned unchanged on a
read-write reopen attempt with a different geometry. -/
theorem claim10_registry_hit_witness :
    openImageReg id (fun _ => none) ("") 0 0 [(("/a/img"), 5)] RK05 ("/a/img") true =
      Out.done (5, [(("/a/img"), 5)], false) :=
  claim10_registry_hit id (fun _ => none) ("") 0 0 [(("/a/img"), 5)] RK05 ("/a/img") true 5
    (by decide) (by decide)

theorem getD_set_ne {α : Type} (l : List α) (d : α) (i j : Nat) (a : α) (h : i ≠ j) :
    (l.set i a).getD j d = l.getD j d := by
  simp [List.getD, List.getElem?_set_ne h]

theorem getD_set_self {α : Type} (l : List α) (d : α) (i : Nat) (a : α) (h : i < l.length) :
    (l.set i a).getD i d = a := by
  simp [List.getD, List.getElem?_set_self, h]

theorem getD_append_left {α : Type} (l m : List α) (d : α) (i : Nat) (h : i < l.length) :
    (l ++ m).getD i d = l.getD i d :=
  List.getD_append _ _ _ _ h

theorem getD_append_right {α : Type} (l m : List α) (d : α) (i : Nat) (h : l.length ≤ i) :
    (l ++ m).getD i d = m.getD (i - l.length) d := by
  simp [List.getD, List.getElem?_append_right h]

theorem getD_take {α : Type} (l : List α) (d : α) (i n : Nat) (h : i < n) :
    (l.take n).getD i d = l.getD i d := by
  simp [List.getD, List.getElem?_take, h]

theorem getD_drop {α : Type} (l : List α) (d : α) (i n : Nat) :
    (l.drop n).getD i d = l.getD (n + i) d := by
  simp [List.getD, List.getElem?_drop]

theorem spliceTail_length (w : List Nat) (loc : Nat) (hw : w.length = 256)
    (hloc : loc + 6 ≤ 256) : (spliceTail w loc).length = 256 := by
  simp only [spliceTail, List.length_append, List.length_take, List.length_drop, hw]
  omega

theorem spliceTail_getD_low (w : List Nat) (loc : Nat) (hw : w.length = 256)
    (hloc : loc + 6 ≤ 256) (i : Nat) (hi : i < loc + 2) :
    (spliceTail w loc).getD i 0 = w.getD i 0 := by
  rw [spliceTail]
  rw [getD_append_left _ _ _ _ (by
    simp only [List.length_append, List.length_take, List.length_drop, hw]
    omega)]
  rw [getD_append_left _ _ _ _ (by simp only [List.length_take, hw]; omega)]
  exact getD_take _ _ _ _ hi

theorem spliceTail_getD_shift (w : List Nat) (loc : Nat) (hw : w.length = 256)
    (hloc : loc + 6 ≤ 256) (i : Nat) (hi : loc + 2 ≤ i) (hi2 : i < 252) :
    (spliceTail w loc).getD i 0 = w.getD (i + 4) 0 := by
  rw [spliceTail]
  rw [getD_append_left _ _ _ _ (by
    simp only [List.length_append, List.length_take, List.length_drop, hw]
    omega)]
  rw [getD_append_right _ _ _ _ (by simp only [List.length_take, hw]; omega)]
  rw [show (w.take (loc + 2)).length = loc + 2 from by
    simp only [List.length_take, hw]; omega]
  rw [getD_drop]
  congr 1
  omega

theorem spliceTail_getD_tail (w : List Nat) (loc : Nat) (hw : w.length = 256)
    (hloc : loc + 6 ≤ 256) (i : Nat) (hi : 252 ≤ i) :
    (spliceTail w loc).getD i 0 = w.getD i 0 := by
  by_cases hi256 : i < 256
  · rw [spliceTail]
    rw [getD_append_right _ _ _ _ (by
      simp only [List.length_append, List.length_take, List.length_drop, hw]
      omega)]
    rw [show (w.take (loc + 2) ++ w.drop (loc + 6)).length = 252 from by
      simp only [List.length_append, List.length_take, List.length_drop, hw]
      omega]
    rw [getD_drop, hw]
    rw [show loc + 2 + (256 - (loc + 6)) + (i - 252) = i from by omega]
  · rw [List.getD_eq_default _ _ (by rw [spliceTail_length w loc hw hloc]; omega),
      List.getD_eq_default _ _ (by rw [hw]; omega)]

theorem removeRewrite_length (ws : List Nat) (loc : Nat) (sz : Int)
    (hL : ws.length = 256) (hloc : loc + 6 ≤ 256) :
    (removeRewrite ws loc sz).length = 256 := by
  rw [removeRewrite]
  exact spliceTail_length _ _ (by simp [hL]) hloc

theorem removeRewrite_getD_lt (ws : List Nat) (loc : Nat) (sz : Int)
    (hL : ws.length = 256) (hloc : loc + 6 ≤ 256) (i : Nat) (hi : i < loc) :
    (removeRewrite ws loc sz).getD i 0 = ws.getD i 0 := by
  rw [removeRewrite]
  rw [spliceTail_getD_low _ _ (by simp [hL]) hloc i (by omega)]
  rw [getD_set_ne _ _ _ _ _ (by omega), getD_set_ne _ _ _ _ _ (by omega)]

theorem removeRewrite_getD_loc (ws : List Nat) (loc : Nat) (sz : Int)
    (hL : ws.length = 256) (hloc : loc + 6 ≤ 256) :
    (removeRewrite ws loc sz).getD loc 0 = 0 := by
  rw [removeRewrite]
  rw [spliceTail_getD_low _ _ (by simp [hL]) hloc loc (by omega)]
  rw [getD_set_ne _ _ _ _ _ (by omega)]
  exact getD_set_self _ _ _ _ (by rw [hL]; omega)

theorem removeRewrite_getD_loc1 (ws : List Nat) (loc : Nat) (sz : Int)
    (hL : ws.length = 256) (hloc : loc + 6 ≤ 256) :
    (removeRewrite ws loc sz).getD (loc + 1) 0 = ((4096 - sz) % 65536).toNat := by
  rw [removeRewrite]
  rw [spliceTail_getD_low _ _ (by simp [hL]) hloc (loc + 1) (by omega)]
  exact getD_set_self _ _ _ _ (by simp only [List.length_set, hL]; omega)

theorem removeRewrite_getD_shift (ws : List Nat) (loc : Nat) (sz : Int)
    (hL : ws.length = 256) (hloc : loc + 6 ≤ 256) (i : Nat) (hi : loc + 2 ≤ i)
    (hi2 : i < 252) :
    (removeRewrite ws loc sz).getD i 0 = ws.getD (i + 4) 0 := by
  rw [removeRewrite]
  rw [spliceTail_getD_shift _ _ (by simp [hL]) hloc i hi hi2]
  rw [getD_set_ne _ _ _ _ _ (by omega), getD_set_ne _ _ _ _ _ (by omega)]

theorem removeRewrite_getD_tail (ws : List Nat) (loc : Nat) (sz : Int)
    (hL : ws.length = 256) (hloc : loc + 6 ≤ 256) (i : Nat) (hi : 252 ≤ i) :
    (removeRewrite ws loc sz).getD i 0 = ws.getD i 0 := by
  rw [removeRewrite]
  rw [spliceTail_getD_tail _ _ (by simp [hL]) hloc i hi]
  rw [getD_set_ne _ _ _ _ _ (by omega), getD_set_ne _ _ _ _ _ (by omega)]

theorem walkFind_shape (nb : Int) (idx : Nat) (ws : List Nat) (t : String) :
    ∀ (n loc : Nat) (b0 : Int) (r : ScanRec),
      walkFind nb idx ws t n loc b0 = Out.done (some r) →
      r.index = idx ∧ loc ≤ r.loc ∧ r.loc + 6 ≤ loc + 6 * n ∧
      r.size = 4096 - (getW ws (r.loc + 5) : Int) ∧
      (∃ d, r.fname = some (t, d)) := by
  intro n
  induction n with
  | zero =>
    intro loc b0 r h
    simp only [walkFind] at h
    cases h
  | succ n ih =>
    intro loc b0 r h
    simp only [walkFind] at h
    by_cases h0 : getW ws loc = 0
    · rw [if_pos h0] at h
      obtain ⟨h1, h2, h3, h4, h5⟩ := ih _ _ _ h
      exact ⟨h1, by omega, by omega, h4, h5⟩
    · rw [if_neg h0] at h
      by_cases hchk : b0 + (4096 - (getW ws (loc + 5) : Int)) > nb
      · rw [if_pos hchk] at h
        cases h
      · rw [if_neg hchk] at h
        by_cases hname : entryName (getW ws loc) (getW ws (loc + 1)) (getW ws (loc + 2))
            (getW ws (loc + 3)) = t
        · rw [if_pos hname] at h
          cases h
          refine ⟨rfl, le_refl _, ?_, rfl, ⟨getW ws (loc + 4), ?_⟩⟩
          · show loc + 6 ≤ loc + 6 * (n + 1)
            omega
          · show some (entryName (getW ws loc) (getW ws (loc + 1)) (getW ws (loc + 2))
                (getW ws (loc + 3)), getW ws (loc + 4)) = some (t, getW ws (loc + 4))
            rw [hname]
        · rw [if_neg hname] at h
          obtain ⟨h1, h2, h3, h4, h5⟩ := ih _ _ _ h
          exact ⟨h1, by omega, by omega, h4, h5⟩

theorem findChain_shape (disk : Disk) (t : String) :
    ∀ (fuel idx : Nat) (r : ScanRec),
      findChain disk t fuel idx = Out.done (some r) →
      1 ≤ r.index ∧ r.index + 1 ≤ disk.length ∧ 5 ≤ r.loc ∧ r.loc + 6 ≤ 245 ∧
      r.size = 4096 - (getW (disk.getD r.index []) (r.loc + 5) : Int) ∧
      (∃ d, r.fname = some (t, d)) := by
  intro fuel
  induction fuel with
  | zero =>
    intro idx r h
    exact Out.noConfusion h
  | succ f ih =>
    intro idx r h
    simp only [findChain] at h
    by_cases hidx : idx = 0
    · rw [if_pos hidx] at h
      cases h
    · rw [if_neg hidx] at h
      by_cases hrange : idx + 1 > disk.length
      · rw [if_pos hrange] at h
        cases h
      · rw [if_neg hrange] at h
        by_cases hnf : neg16 (getW (disk.getD idx []) 0) > 40
        · rw [if_pos hnf] at h
          cases h
        · rw [if_neg hnf] at h
          cases hwalk : walkFind disk.length idx (disk.getD idx []) t
              (neg16 (getW (disk.getD idx []) 0)) 5 (getW (disk.getD idx []) 1 : Int) with
          | done o =>
            cases o with
            | some r2 =>
              simp only [hwalk] at h
              cases h
              obtain ⟨h1, h2, h3, h4, h5⟩ := walkFind_shape _ _ _ _ _ _ _ _ hwalk
              refine ⟨by omega, by omega, by omega, by omega, ?_, h5⟩
              rw [h1]
              exact h4
            | none =>
              simp only [hwalk] at h
              exact ih _ _ h
          | fail e =>
            simp only [hwalk] at h
            cases h
          | hang =>
            simp only [hwalk] at h
            cases h
          | crash =>
            simp only [hwalk] at h
            cases h

theorem BlocksWF.getD_len {disk : Disk} (h : BlocksWF disk) {i : Nat}
    (hi : i < disk.length) : (disk.getD i []).length = 256 := by
  have hmem : disk.getD i [] ∈ disk := by
    rw [List.getD_eq_getElem _ _ hi]
    exact List.getElem_mem _
  exact h _ hmem

theorem removeFS_found (disk : Disk) (fuel : Nat) (name : String) (r : ScanRec)
    (hfind : findChain disk (toUpperStr name) fuel 1 = Out.done (some r)) :
    removeFS disk fuel name =
      writeBlocksFS disk r.index (removeRewrite (disk.getD r.index []) r.loc r.size) := by
  simp only [removeFS, hfind]

theorem writeBlocksFS_one (disk : Disk) (start : Nat) (ws : List Nat)
    (hlen : ws.length = 256) (hrange : start + 1 ≤ disk.length) :
    writeBlocksFS disk start ws = Out.done (disk.set start ws) := by
  simp only [writeBlocksFS, hlen]
  rw [if_neg (by omega), if_neg (by norm_num), if_neg (by omega)]
  have h1 : (256 : Nat) / 256 = 1 := by norm_num
  rw [h1]
  simp only [setChunks]
  rw [List.take_of_length_le (by omega)]

/-- Claim C1: on a match at word offset `loc` of its directory block,
`Remove` zeroes word `loc`, stores `0o10000 - size` at `loc+1`, copies
`block[loc+6..]` over `block[loc+2..]` leaving the last four words in place
(duplicated), leaves every word before `loc` — the `nfiles` header word
included — untouched, and writes exactly that block back; with no match it
returns the "file not found" error and writes nothing. -/
theorem claim1_remove_rewrite :
    (∀ (disk : Disk) (fuel : Nat) (name : String) (r : ScanRec), BlocksWF disk →
      findChain disk (toUpperStr name) fuel 1 = Out.done (some r) →
      ∃ B2 : List Nat,
        removeFS disk fuel name = Out.done (disk.set r.index B2) ∧
        5 ≤ r.loc ∧
        B2.length = 256 ∧
        (∀ i, i < r.loc → B2.getD i 0 = (disk.getD r.index []).getD i 0) ∧
        B2.getD r.loc 0 = 0 ∧
        ((B2.getD (r.loc + 1) 0 : Int) = 4096 - r.size) ∧
        (∀ i, r.loc + 2 ≤ i → i < 252 → B2.getD i 0 = (disk.getD r.index []).getD (i + 4) 0) ∧
        (∀ i, 252 ≤ i → B2.getD i 0 = (disk.getD r.index []).getD i 0)) ∧
    (∀ (disk : Disk) (fuel : Nat) (name : String),
      findChain disk (toUpperStr name) fuel 1 = Out.done none →
      removeFS disk fuel name = Out.fail ("file not found")) := by
  constructor
  · intro disk fuel name r hwf hfind
    obtain ⟨hi1, hi2, hloc5, hloc6, hsz, d, hfn⟩ := findChain_shape disk _ fuel 1 r hfind
    have hwsl : (disk.getD r.index []).length = 256 := hwf.getD_len (by omega)
    have hloc256 : r.loc + 6 ≤ 256 := by omega
    refine ⟨removeRewrite (disk.getD r.index []) r.loc r.size, ?_, hloc5, ?_, ?_, ?_, ?_, ?_, ?_⟩
    · rw [removeFS_found disk fuel name r hfind]
      exact writeBlocksFS_one _ _ _
        (removeRewrite_length _ _ _ hwsl hloc256) (by omega)
    · exact removeRewrite_length _ _ _ hwsl hloc256
    · intro i hi
      exact removeRewrite_getD_lt _ _ _ hwsl hloc256 i hi
    · exact removeRewrite_getD_loc _ _ _ hwsl hloc256
    · rw [removeRewrite_getD_loc1 _ _ _ hwsl hloc256]
      have hg : getW (disk.getD r.index []) (r.loc + 5) < 65536 :=
        Nat.mod_lt _ (by norm_num)
      omega
    · intro i hi hi2
      exact removeRewrite_getD_shift _ _ _ hwsl hloc256 i hi hi2
    · intro i hi
      exact removeRewrite_getD_tail _ _ _ hwsl hloc256 i hi
  · intro disk fuel name hfind
    simp only [removeFS, hfind]

set_option maxRecDepth 8000 in
/-- Witness for claim C1 at a concrete image: removing `AB` from
`twoFileDisk` (matched at block 1, offset 5, size 2). -/
theorem claim1_remove_rewrite_witness :
    ∃ B2 : List Nat,
      removeFS twoFileDisk 4 ("AB") = Out.done (twoFileDisk.set 1 B2) ∧
      5 ≤ 5 ∧
      B2.length = 256 ∧
      (∀ i, i < 5 → B2.getD i 0 = (twoFileDisk.getD 1 []).getD i 0) ∧
      B2.getD 5 0 = 0 ∧
      ((B2.getD (5 + 1) 0 : Int) = 4096 - 2) ∧
      (∀ i, 5 + 2 ≤ i → i < 252 → B2.getD i 0 = (twoFileDisk.getD 1 []).getD (i + 4) 0) ∧
      (∀ i, 252 ≤ i → B2.getD i 0 = (twoFileDisk.getD 1 []).getD i 0) :=
  claim1_remove_rewrite.1 twoFileDisk 4 ("AB") ⟨1, 5, 3, 2, some (("AB"), 0)⟩
    (by decide) rfl

end OS8

namespace OS8

theorem iterN_add (g : Nat → Nat) (a b : Nat) (x : Nat) :
    iterN g (a + b) x = iterN g a (iterN g b x) := by
  induction b generalizing x with
  | zero => rfl
  | succ b ih =>
    show iterN g (a + b) (g x) = iterN g a (iterN g b (g x))
    exact ih (g x)

theorem iterN_absorb (g : Nat → Nat) (h0 : g 0 = 0) (n : Nat) : iterN g n 0 = 0 := by
  induction n with
  | zero => rfl
  | succ n ih =>
    show iterN g n (g 0) = 0
    rw [h0]
    exact ih

theorem gstep_ne (disk : Disk) (i : Nat) (h : i ≠ 0) :
    gstep disk i = getW (disk.getD i []) 2 := by
  simp [gstep, h, chainNextIdx]

theorem scanChain_reaches_zero (disk : Disk) :
    ∀ (fuel idx : Nat) (rs : List ScanRec), scanChain disk fuel idx = Out.done rs →
      iterN (gstep disk) fuel idx = 0 := by
  intro fuel
  induction fuel with
  | zero =>
    intro idx rs h
    exact Out.noConfusion h
  | succ f ih =>
    intro idx rs h
    by_cases hidx : idx = 0
    · subst hidx
      show iterN (gstep disk) f (gstep disk 0) = 0
      exact iterN_absorb _ rfl f
    · simp only [scanChain] at h
      rw [if_neg hidx] at h
      by_cases hrange : idx + 1 > disk.length
      · rw [if_pos hrange] at h
        cases h
      · rw [if_neg hrange] at h
        by_cases hnf : neg16 (getW (disk.getD idx []) 0) > 40
        · rw [if_pos hnf] at h
          cases h
        · rw [if_neg hnf] at h
          cases hwalk : walkEntries disk.length idx (disk.getD idx [])
              (neg16 (getW (disk.getD idx []) 0)) 5 (getW (disk.getD idx []) 1 : Int) with
          | done rs1 =>
            simp only [hwalk, out_map_done] at h
            obtain ⟨rs2, hrec, _⟩ := h
            have hit := ih _ _ hrec
            show iterN (gstep disk) f (gstep disk idx) = 0
            rw [gstep_ne disk idx hidx]
            exact hit
          | fail e =>
            simp only [hwalk] at h
            exact Out.noConfusion h
          | hang =>
            simp only [hwalk] at h
            exact Out.noConfusion h
          | crash =>
            simp only [hwalk] at h
            exact Out.noConfusion h

theorem chainMem_spec (disk : Disk) :
    ∀ (f j b : Nat), chainMem disk f j b = true →
      ∃ n, n < f ∧ iterN (gstep disk) n j = b := by
  intro f
  induction f with
  | zero =>
    intro j b h
    simp [chainMem] at h
  | succ f ih =>
    intro j b h
    simp only [chainMem] at h
    by_cases hj : j = 0
    · rw [if_pos hj] at h
      simp at h
    · rw [if_neg hj] at h
      have h2 : (j == b) = true ∨ chainMem disk f (gstep disk j) b = true := by
        simpa using h
      rcases h2 with h1 | h1
      · refine ⟨0, by omega, ?_⟩
        show j = b
        exact eq_of_beq h1
      · obtain ⟨n, hn, hit⟩ := ih _ _ h1
        refine ⟨n + 1, by omega, ?_⟩
        show iterN (gstep disk) n (gstep disk j) = b
        exact hit

theorem scan_no_revisit (disk : Disk) (f idx : Nat) (rs : List ScanRec) (hidx : idx ≠ 0)
    (h : scanChain disk (f + 1) idx = Out.done rs) :
    chainMem disk f (gstep disk idx) idx = false := by
  by_contra hmem
  rw [Bool.not_eq_false] at hmem
  obtain ⟨n, hn, hit⟩ := chainMem_spec disk f _ _ hmem
  have hper : iterN (gstep disk) (n + 1) idx = idx := hit
  have hzero : iterN (gstep disk) (f + 1) idx = 0 :=
    scanChain_reaches_zero disk (f + 1) idx rs h
  have hk : ∀ k, iterN (gstep disk) (k * (n + 1)) idx = idx := by
    intro k
    induction k with
    | zero =>
      rw [Nat.zero_mul]
      rfl
    | succ k ihk =>
      rw [show (k + 1) * (n + 1) = k * (n + 1) + (n + 1) from by ring]
      rw [iterN_add, hper]
      exact ihk
  have hN : iterN (gstep disk) ((f + 1) * (n + 1)) idx = idx := hk (f + 1)
  have hle : f + 1 ≤ (f + 1) * (n + 1) := Nat.le_mul_of_pos_right _ (by omega)
  have hsplit : (f + 1) * (n + 1) = ((f + 1) * (n + 1) - (f + 1)) + (f + 1) := by omega
  rw [hsplit, iterN_add, hzero, iterN_absorb _ rfl] at hN
  exact hidx hN.symm

theorem scan_untouched (disk : Disk) (b : Nat) (B2 : List Nat) :
    ∀ (f i : Nat), chainMem disk f i b = false →
      scanChain (disk.set b B2) f i = scanChain disk f i := by
  intro f
  induction f with
  | zero =>
    intro i _
    rfl
  | succ f ih =>
    intro i hmem
    simp only [chainMem] at hmem
    by_cases hi : i = 0
    · subst hi
      rfl
    · rw [if_neg hi] at hmem
      have hib : i ≠ b := by
        intro hcontra
        subst hcontra
        simp at hmem
      have hmem2 : chainMem disk f (gstep disk i) b = false :=
        (Bool.or_eq_false_iff.mp hmem).2
      have hmem3 : chainMem disk f (getW (disk.getD i []) 2) b = false := by
        rw [← gstep_ne disk i hi]
        exact hmem2
      have hget : (disk.set b B2).getD i [] = disk.getD i [] :=
        getD_set_ne _ _ _ _ _ (fun he => hib he.symm)
      have hlen : (disk.set b B2).length = disk.length := List.length_set disk b B2
      simp only [scanChain, hlen, hget, ih _ hmem3]

theorem findChain_mem (disk : Disk) (t : String) :
    ∀ (f j : Nat) (r : ScanRec), findChain disk t f j = Out.done (some r) →
      chainMem disk f j r.index = true := by
  intro f
  induction f with
  | zero =>
    intro j r h
    exact Out.noConfusion h
  | succ f ih =>
    intro j r h
    simp only [findChain] at h
    by_cases hj : j = 0
    · rw [if_pos hj] at h
      simp at h
    · rw [if_neg hj] at h
      simp only [chainMem, if_neg hj]
      by_cases hrange : j + 1 > disk.length
      · rw [if_pos hrange] at h
        cases h
      · rw [if_neg hrange] at h
        by_cases hnf : neg16 (getW (disk.getD j []) 0) > 40
        · rw [if_pos hnf] at h
          cases h
        · rw [if_neg hnf] at h
          cases hwalk : walkFind disk.length j (disk.getD j []) t
              (neg16 (getW (disk.getD j []) 0)) 5 (getW (disk.getD j []) 1 : Int) with
          | done o =>
            cases o with
            | some r2 =>
              simp only [hwalk] at h
              have hr : r2 = r := by simpa using h
              subst hr
              have hidx2 : r2.index = j := (walkFind_shape _ _ _ _ _ _ _ _ hwalk).1
              rw [hidx2]
              simp
            | none =>
              simp only [hwalk] at h
              have hrec := ih _ _ h
              rw [← gstep_ne disk j hj] at hrec
              rw [hrec]
              simp
          | fail e =>
            simp only [hwalk] at h
            exact Out.noConfusion h
          | hang =>
            simp only [hwalk] at h
            exact Out.noConfusion h
          | crash =>
            simp only [hwalk] at h
            exact Out.noConfusion h

end OS8

namespace OS8

theorem out_map_map {α β γ : Type} (f : α → β) (g : β → γ) (o : Out α) :
    (o.map f).map g = o.map (fun a => g (f a)) := by
  cases o <;> rfl

theorem getW_eq {ws1 ws2 : List Nat} {i j : Nat} (h : ws1.getD i 0 = ws2.getD j 0) :
    getW ws1 i = getW ws2 j := by
  simp only [getW, h]

theorem fileInfoOf_shiftRec (q : ScanRec) : fileInfoOf (shiftRec q) = fileInfoOf q := rfl

theorem filterMap_shiftRec (l : List ScanRec) :
    (l.map shiftRec).filterMap fileInfoOf = l.filterMap fileInfoOf := by
  induction l with
  | nil => rfl
  | cons q tl ih =>
    simp only [List.map_cons, List.filterMap_cons, fileInfoOf_shiftRec, ih]

theorem countNamed_cons (t : String) (fi : FileInfo) (l : List FileInfo) :
    countNamed t (fi :: l) = (if fi.name = t then 1 else 0) + countNamed t l := by
  by_cases h : fi.name = t
  · simp [countNamed, List.filter_cons, h, Nat.add_comm]
  · simp [countNamed, List.filter_cons, h]

theorem filter_ne_of_count_zero (t : String) (l : List FileInfo)
    (h : countNamed t l = 0) : l.filter (fun fi => fi.name ≠ t) = l := by
  induction l with
  | nil => rfl
  | cons fi tl ih =>
    rw [countNamed_cons] at h
    by_cases hfi : fi.name = t
    · rw [if_pos hfi] at h
      omega
    · rw [if_neg hfi] at h
      rw [List.filter_cons, if_pos (by simp [hfi])]
      rw [ih (by omega)]

theorem eraseNamed_eq_filter (t : String) (l : List FileInfo)
    (h : countNamed t l ≤ 1) :
    eraseNamed t l = l.filter (fun fi => fi.name ≠ t) := by
  induction l with
  | nil => rfl
  | cons fi tl ih =>
    rw [countNamed_cons] at h
    by_cases hfi : fi.name = t
    · rw [if_pos hfi] at h
      have h0 : countNamed t tl = 0 := by omega
      simp only [eraseNamed, if_pos hfi]
      rw [List.filter_cons, if_neg (by simp [hfi])]
      exact (filter_ne_of_count_zero t tl h0).symm
    · rw [if_neg hfi] at h
      simp only [eraseNamed, if_neg hfi]
      rw [List.filter_cons, if_pos (by simp [hfi])]
      rw [ih (by omega)]

theorem eraseNamed_append_left (t : String) (A B : List FileInfo)
    (h : ∃ fi ∈ A, fi.name = t) :
    eraseNamed t (A ++ B) = eraseNamed t A ++ B := by
  induction A with
  | nil =>
    obtain ⟨fi, hmem, _⟩ := h
    simp at hmem
  | cons fi tl ih =>
    by_cases hfi : fi.name = t
    · simp only [List.cons_append, eraseNamed, if_pos hfi, List.append_eq]
    · simp only [List.cons_append, eraseNamed, if_neg hfi, List.append_eq]
      rw [ih]
      obtain ⟨fj, hmem, hname⟩ := h
      rcases List.mem_cons.1 hmem with rfl | hmem2
      · exact absurd hname hfi
      · exact ⟨fj, hmem2, hname⟩

theorem eraseNamed_append_right (t : String) (A B : List FileInfo)
    (h : ∀ fi ∈ A, fi.name ≠ t) :
    eraseNamed t (A ++ B) = A ++ eraseNamed t B := by
  induction A with
  | nil => rfl
  | cons fi tl ih =>
    have hfi : fi.name ≠ t := h fi (List.mem_cons_self fi tl)
    simp only [List.cons_append, eraseNamed, if_neg hfi, List.append_eq]
    rw [ih (fun fj hj => h fj (List.mem_cons_of_mem fi hj))]

theorem walk_no_match (nb : Int) (idx : Nat) (ws : List Nat) (t : String) :
    ∀ (n loc : Nat) (b0 : Int) (rs : List ScanRec),
      walkEntries nb idx ws n loc b0 = Out.done rs →
      walkFind nb idx ws t n loc b0 = Out.done none →
      ∀ fi ∈ rs.filterMap fileInfoOf, fi.name ≠ t := by
  intro n
  induction n with
  | zero =>
    intro loc b0 rs h _ fi hfi
    simp only [walkEntries] at h
    cases h
    simp at hfi
  | succ n ih =>
    intro loc b0 rs h hf fi hfi hname
    simp only [walkEntries] at h
    simp only [walkFind] at hf
    by_cases h0 : getW ws loc = 0
    · rw [if_pos h0] at h
      rw [if_pos h0] at hf
      rw [out_map_done] at h
      obtain ⟨rs2, hrec, hcons⟩ := h
      subst hcons
      simp only [List.filterMap_cons] at hfi
      have hfree : fileInfoOf (⟨idx, loc, b0, (neg16 (getW ws (loc + 1)) : Int), none⟩ :
          ScanRec) = none := rfl
      rw [hfree] at hfi
      exact ih _ _ _ hrec hf fi hfi hname
    · rw [if_neg h0] at h
      rw [if_neg h0] at hf
      by_cases hchk : b0 + (4096 - (getW ws (loc + 5) : Int)) > nb
      · rw [if_pos hchk] at h
        cases h
      · rw [if_neg hchk] at h
        rw [if_neg hchk] at hf
        by_cases hmatch : entryName (getW ws loc) (getW ws (loc + 1)) (getW ws (loc + 2))
            (getW ws (loc + 3)) = t
        · rw [if_pos hmatch] at hf
          cases hf
        · rw [if_neg hmatch] at hf
          rw [out_map_done] at h
          obtain ⟨rs2, hrec, hcons⟩ := h
          subst hcons
          simp only [List.filterMap_cons, fileInfoOf] at hfi
          rcases List.mem_cons.1 hfi with rfl | hfi2
          · exact hmatch hname
          · exact ih _ _ _ hrec hf fi hfi2 hname

end OS8

namespace OS8

theorem walk_shift (nb : Int) (idx : Nat) (ws : List Nat) (rloc : Nat) (rsz : Int)
    (hwsl : ws.length = 256) (hrloc : rloc + 6 ≤ 256) :
    ∀ (n loc : Nat) (b0 : Int), rloc + 2 ≤ loc → loc + 6 * n ≤ 252 →
      walkEntries nb idx (removeRewrite ws rloc rsz) n loc b0 =
        (walkEntries nb idx ws n (loc + 4) b0).map (List.map shiftRec) := by
  intro n
  induction n with
  | zero =>
    intro loc b0 _ _
    rfl
  | succ n ih =>
    intro loc b0 hge hbound
    have h0 : getW (removeRewrite ws rloc rsz) loc = getW ws (loc + 4) :=
      getW_eq (removeRewrite_getD_shift ws rloc rsz hwsl hrloc loc (by omega) (by omega))
    have h1 : getW (removeRewrite ws rloc rsz) (loc + 1) = getW ws (loc + 4 + 1) :=
      getW_eq (removeRewrite_getD_shift ws rloc rsz hwsl hrloc (loc + 1) (by omega) (by omega))
    have h2 : getW (removeRewrite ws rloc rsz) (loc + 2) = getW ws (loc + 4 + 2) :=
      getW_eq (removeRewrite_getD_shift ws rloc rsz hwsl hrloc (loc + 2) (by omega) (by omega))
    have h3 : getW (removeRewrite ws rloc rsz) (loc + 3) = getW ws (loc + 4 + 3) :=
      getW_eq (removeRewrite_getD_shift ws rloc rsz hwsl hrloc (loc + 3) (by omega) (by omega))
    have h4 : getW (removeRewrite ws rloc rsz) (loc + 4) = getW ws (loc + 4 + 4) :=
      getW_eq (removeRewrite_getD_shift ws rloc rsz hwsl hrloc (loc + 4) (by omega) (by omega))
    have h5 : getW (removeRewrite ws rloc rsz) (loc + 5) = getW ws (loc + 4 + 5) :=
      getW_eq (removeRewrite_getD_shift ws rloc rsz hwsl hrloc (loc + 5) (by omega) (by omega))
    simp only [walkEntries, h0, h1, h2, h3, h4, h5]
    by_cases hz : getW ws (loc + 4) = 0
    · rw [if_pos hz, if_pos hz]
      rw [ih (loc + 2) _ (by omega) (by omega)]
      rw [out_map_map, out_map_map]
      rfl
    · rw [if_neg hz, if_neg hz]
      by_cases hchk : b0 + (4096 - (getW ws (loc + 4 + 5) : Int)) > nb
      · rw [if_pos hchk, if_pos hchk]
        rfl
      · rw [if_neg hchk, if_neg hchk]
        rw [ih (loc + 6) _ (by omega) (by omega)]
        rw [out_map_map, out_map_map]
        rfl

end OS8

namespace OS8

theorem fileInfoOf_free (idx loc : Nat) (b0 sz : Int) :
    fileInfoOf ⟨idx, loc, b0, sz, none⟩ = none := rfl

theorem fileInfoOf_file (idx loc : Nat) (b0 sz : Int) (nm : String) (dt : Nat) :
    fileInfoOf ⟨idx, loc, b0, sz, some (nm, dt)⟩ = some ⟨nm, dt, sz, b0⟩ := rfl

theorem walk_rewrite (nb : Int) (idx : Nat) (ws : List Nat) (t : String)
    (hwsl : ws.length = 256) :
    ∀ (n loc : Nat) (b0 : Int) (rs : List ScanRec) (r : ScanRec),
      walkEntries nb idx ws n loc b0 = Out.done rs →
      walkFind nb idx ws t n loc b0 = Out.done (some r) →
      0 ≤ r.size →
      loc + 6 * n ≤ 245 →
      ∃ rs2, walkEntries nb idx (removeRewrite ws r.loc r.size) n loc b0 = Out.done rs2 ∧
        rs2.filterMap fileInfoOf = eraseNamed t (rs.filterMap fileInfoOf) ∧
        ∃ fi ∈ rs.filterMap fileInfoOf, fi.name = t := by
  intro n
  induction n with
  | zero =>
    intro loc b0 rs r _ hf _ _
    simp [walkFind] at hf
  | succ n ih =>
    intro loc b0 rs r hw hf hsz hbound
    simp only [walkEntries] at hw
    simp only [walkFind] at hf
    by_cases h0 : getW ws loc = 0
    · rw [if_pos h0] at hw
      rw [if_pos h0] at hf
      rw [out_map_done] at hw
      obtain ⟨rs1, hwrec, hcons⟩ := hw
      subst hcons
      obtain ⟨hri, hge, hle, hszf, hex⟩ := walkFind_shape nb idx ws t n (loc + 2) _ r hf
      obtain ⟨rs2, hB2rec, hfm, hex2⟩ := ih (loc + 2) _ rs1 r hwrec hf hsz (by omega)
      have hrloc256 : r.loc + 6 ≤ 256 := by omega
      have e0 : getW (removeRewrite ws r.loc r.size) loc = getW ws loc :=
        getW_eq (removeRewrite_getD_lt ws r.loc r.size hwsl hrloc256 loc (by omega))
      have e1 : getW (removeRewrite ws r.loc r.size) (loc + 1) = getW ws (loc + 1) :=
        getW_eq (removeRewrite_getD_lt ws r.loc r.size hwsl hrloc256 (loc + 1) (by omega))
      refine ⟨⟨idx, loc, b0, (neg16 (getW ws (loc + 1)) : Int), none⟩ :: rs2, ?_, ?_, ?_⟩
      · simp only [walkEntries, e0, e1, if_pos h0]
        rw [hB2rec]
        rfl
      · simp only [List.filterMap_cons, fileInfoOf_free]
        exact hfm
      · obtain ⟨fi, hmem, hname⟩ := hex2
        refine ⟨fi, ?_, hname⟩
        simp only [List.filterMap_cons, fileInfoOf_free]
        exact hmem
    · rw [if_neg h0] at hw
      rw [if_neg h0] at hf
      by_cases hchk : b0 + (4096 - (getW ws (loc + 5) : Int)) > nb
      · rw [if_pos hchk] at hw
        cases hw
      · rw [if_neg hchk] at hw
        rw [if_neg hchk] at hf
        rw [out_map_done] at hw
        obtain ⟨rs1, hwrec, hcons⟩ := hw
        subst hcons
        by_cases hmatch : entryName (getW ws loc) (getW ws (loc + 1)) (getW ws (loc + 2))
            (getW ws (loc + 3)) = t
        · rw [if_pos hmatch] at hf
          cases hf
          dsimp only at hsz ⊢
          have hle256 : loc + 6 ≤ 256 := by omega
          have hglt : getW ws (loc + 5) < 65536 := Nat.mod_lt _ (by norm_num)
          have hfree0 : getW (removeRewrite ws loc (4096 - (getW ws (loc + 5) : Int))) loc
              = 0 := by
            simp only [getW, removeRewrite_getD_loc ws loc _ hwsl hle256]
          have hstored : (removeRewrite ws loc (4096 - (getW ws (loc + 5) : Int))).getD
              (loc + 1) 0 = getW ws (loc + 5) := by
            rw [removeRewrite_getD_loc1 ws loc _ hwsl hle256]
            omega
          have hgw : getW (removeRewrite ws loc (4096 - (getW ws (loc + 5) : Int)))
              (loc + 1) = getW ws (loc + 5) := by
            show (removeRewrite ws loc (4096 - (getW ws (loc + 5) : Int))).getD
                (loc + 1) 0 % 65536 = getW ws (loc + 5)
            rw [hstored]
            exact Nat.mod_eq_of_lt hglt
          have hfreesz : (neg16 (getW (removeRewrite ws loc
              (4096 - (getW ws (loc + 5) : Int))) (loc + 1)) : Int)
              = 4096 - (getW ws (loc + 5) : Int) := by
            rw [hgw]
            simp only [neg16]
            omega
          refine ⟨⟨idx, loc, b0, 4096 - (getW ws (loc + 5) : Int), none⟩ ::
              List.map shiftRec rs1, ?_, ?_, ?_⟩
          · simp only [walkEntries, hfree0, hfreesz, eq_self_iff_true, if_true]
            rw [walk_shift nb idx ws loc _ hwsl hle256 n (loc + 2) _ (by omega) (by omega)]
            rw [hwrec]
            rfl
          · simp only [List.filterMap_cons, fileInfoOf_free, fileInfoOf_file,
              filterMap_shiftRec, eraseNamed]
            rw [if_pos hmatch]
          · refine ⟨⟨entryName (getW ws loc) (getW ws (loc + 1)) (getW ws (loc + 2))
                (getW ws (loc + 3)), getW ws (loc + 4), 4096 - (getW ws (loc + 5) : Int),
                b0⟩, ?_, hmatch⟩
            simp only [List.filterMap_cons, fileInfoOf_file]
            exact List.mem_cons_self _ _
        · rw [if_neg hmatch] at hf
          obtain ⟨hri, hge, hle, hszf, hex⟩ := walkFind_shape nb idx ws t n (loc + 6) _ r hf
          obtain ⟨rs2, hB2rec, hfm, hex2⟩ := ih (loc + 6) _ rs1 r hwrec hf hsz (by omega)
          have hrloc256 : r.loc + 6 ≤ 256 := by omega
          have e0 : getW (removeRewrite ws r.loc r.size) loc = getW ws loc :=
            getW_eq (removeRewrite_getD_lt ws r.loc r.size hwsl hrloc256 loc (by omega))
          have e1 : getW (removeRewrite ws r.loc r.size) (loc + 1) = getW ws (loc + 1) :=
            getW_eq (removeRewrite_getD_lt ws r.loc r.size hwsl hrloc256 (loc + 1) (by omega))
          have e2 : getW (removeRewrite ws r.loc r.size) (loc + 2) = getW ws (loc + 2) :=
            getW_eq (removeRewrite_getD_lt ws r.loc r.size hwsl hrloc256 (loc + 2) (by omega))
          have e3 : getW (removeRewrite ws r.loc r.size) (loc + 3) = getW ws (loc + 3) :=
            getW_eq (removeRewrite_getD_lt ws r.loc r.size hwsl hrloc256 (loc + 3) (by omega))
          have e4 : getW (removeRewrite ws r.loc r.size) (loc + 4) = getW ws (loc + 4) :=
            getW_eq (removeRewrite_getD_lt ws r.loc r.size hwsl hrloc256 (loc + 4) (by omega))
          have e5 : getW (removeRewrite ws r.loc r.size) (loc + 5) = getW ws (loc + 5) :=
            getW_eq (removeRewrite_getD_lt ws r.loc r.size hwsl hrloc256 (loc + 5) (by omega))
          refine ⟨⟨idx, loc, b0, 4096 - (getW ws (loc + 5) : Int),
              some (entryName (getW ws loc) (getW ws (loc + 1)) (getW ws (loc + 2))
                  (getW ws (loc + 3)), getW ws (loc + 4))⟩ :: rs2, ?_, ?_, ?_⟩
          · simp only [walkEntries, e0, e1, e2, e3, e4, e5]
            rw [if_neg h0, if_neg hchk]
            rw [hB2rec]
            rfl
          · simp only [List.filterMap_cons, fileInfoOf_file, eraseNamed]
            rw [if_neg hmatch, hfm]
          · obtain ⟨fi, hmem, hname⟩ := hex2
            refine ⟨fi, ?_, hname⟩
            simp only [List.filterMap_cons, fileInfoOf_file]
            exact List.mem_cons_of_mem _ hmem

end OS8

namespace OS8

theorem scan_after_remove (disk : Disk) (t : String) (r : ScanRec)
    (hwf : BlocksWF disk) (hsz : 0 ≤ r.size) :
    ∀ (fuel idx : Nat) (rs : List ScanRec),
      scanChain disk fuel idx = Out.done rs →
      findChain disk t fuel idx = Out.done (some r) →
      ∃ rs2,
        scanChain (disk.set r.index (removeRewrite (disk.getD r.index []) r.loc r.size))
          fuel idx = Out.done rs2 ∧
        rs2.filterMap fileInfoOf = eraseNamed t (rs.filterMap fileInfoOf) := by
  intro fuel
  induction fuel with
  | zero =>
    intro idx rs h _
    exact Out.noConfusion h
  | succ f ih =>
    intro idx rs hscan hfind
    by_cases hidx : idx = 0
    · subst hidx
      simp [findChain] at hfind
    · simp only [scanChain] at hscan
      simp only [findChain] at hfind
      rw [if_neg hidx] at hscan
      rw [if_neg hidx] at hfind
      by_cases hrange : idx + 1 > disk.length
      · rw [if_pos hrange] at hscan
        cases hscan
      · rw [if_neg hrange] at hscan
        rw [if_neg hrange] at hfind
        by_cases hnf : neg16 (getW (disk.getD idx []) 0) > 40
        · rw [if_pos hnf] at hscan
          cases hscan
        · rw [if_neg hnf] at hscan
          rw [if_neg hnf] at hfind
          cases hwalk : walkEntries disk.length idx (disk.getD idx [])
              (neg16 (getW (disk.getD idx []) 0)) 5 (getW (disk.getD idx []) 1 : Int) with
          | done rsBlk =>
            simp only [hwalk, out_map_done] at hscan
            obtain ⟨rsRest, hrest, happ⟩ := hscan
            subst happ
            have hscan_whole : scanChain disk (f + 1) idx = Out.done (rsBlk ++ rsRest) := by
              simp only [scanChain, if_neg hidx, if_neg hrange, if_neg hnf, hwalk, hrest]
              rfl
            have hnorev : chainMem disk f (gstep disk idx) idx = false :=
              scan_no_revisit disk f idx (rsBlk ++ rsRest) hidx hscan_whole
            have hnorev2 : chainMem disk f (getW (disk.getD idx []) 2) idx = false := by
              rw [← gstep_ne disk idx hidx]
              exact hnorev
            cases hwfind : walkFind disk.length idx (disk.getD idx []) t
                (neg16 (getW (disk.getD idx []) 0)) 5 (getW (disk.getD idx []) 1 : Int) with
            | done o =>
              cases o with
              | some r2 =>
                simp only [hwfind] at hfind
                have hr2 : r2 = r := by simpa using hfind
                subst hr2
                obtain ⟨hri, hge5, hle, hszf, hex⟩ := walkFind_shape _ _ _ _ _ _ _ _ hwfind
                have hwsl : (disk.getD idx []).length = 256 := hwf.getD_len (by omega)
                obtain ⟨rs2Blk, hB2walk, hfm, hexfi⟩ :=
                  walk_rewrite disk.length idx (disk.getD idx []) t hwsl _ 5 _ rsBlk r2
                    hwalk hwfind hsz (by omega)
                rw [hri]
                have hrloc256 : r2.loc + 6 ≤ 256 := by omega
                have hgetset : (disk.set idx
                    (removeRewrite (disk.getD idx []) r2.loc r2.size)).getD idx []
                    = removeRewrite (disk.getD idx []) r2.loc r2.size :=
                  getD_set_self _ _ _ _ (by omega)
                have hlenset : (disk.set idx
                    (removeRewrite (disk.getD idx []) r2.loc r2.size)).length = disk.length :=
                  List.length_set _ _ _
                have hh0 : getW (removeRewrite (disk.getD idx []) r2.loc r2.size) 0
                    = getW (disk.getD idx []) 0 :=
                  getW_eq (removeRewrite_getD_lt _ _ _ hwsl hrloc256 0 (by omega))
                have hh1 : getW (removeRewrite (disk.getD idx []) r2.loc r2.size) 1
                    = getW (disk.getD idx []) 1 :=
                  getW_eq (removeRewrite_getD_lt _ _ _ hwsl hrloc256 1 (by omega))
                have hh2 : getW (removeRewrite (disk.getD idx []) r2.loc r2.size) 2
                    = getW (disk.getD idx []) 2 :=
                  getW_eq (removeRewrite_getD_lt _ _ _ hwsl hrloc256 2 (by omega))
                have huntouched := scan_untouched disk idx
                  (removeRewrite (disk.getD idx []) r2.loc r2.size) f
                  (getW (disk.getD idx []) 2) hnorev2
                refine ⟨rs2Blk ++ rsRest, ?_, ?_⟩
                · simp only [scanChain, hlenset, hgetset, hh0, hh1, hh2, if_neg hidx,
                    if_neg hrange, if_neg hnf, hB2walk, huntouched, hrest]
                  rfl
                · simp only [List.filterMap_append]
                  rw [hfm, eraseNamed_append_left t _ _ hexfi]
              | none =>
                simp only [hwfind] at hfind
                obtain ⟨rs2Rest, hset_rest, hfm_rest⟩ :=
                  ih (getW (disk.getD idx []) 2) rsRest hrest hfind
                have hmem : chainMem disk f (getW (disk.getD idx []) 2) r.index = true :=
                  findChain_mem disk t f _ r hfind
                have hner : idx ≠ r.index := by
                  intro hcontra
                  rw [← hcontra] at hmem
                  rw [hmem] at hnorev2
                  exact Bool.noConfusion hnorev2
                have hgetset : (disk.set r.index
                    (removeRewrite (disk.getD r.index []) r.loc r.size)).getD idx []
                    = disk.getD idx [] :=
                  getD_set_ne _ _ _ _ _ (fun he => hner he.symm)
                have hlenset : (disk.set r.index
                    (removeRewrite (disk.getD r.index []) r.loc r.size)).length
                    = disk.length :=
                  List.length_set _ _ _
                have hnomatch := walk_no_match disk.length idx (disk.getD idx []) t _ 5 _
                  rsBlk hwalk hwfind
                refine ⟨rsBlk ++ rs2Rest, ?_, ?_⟩
                · simp only [scanChain, hlenset, hgetset, if_neg hidx, if_neg hrange,
                    if_neg hnf, hwalk, hset_rest]
                  rfl
                · simp only [List.filterMap_append]
                  rw [hfm_rest, eraseNamed_append_right t _ _ hnomatch]
            | fail e =>
              simp only [hwfind] at hfind
              exact Out.noConfusion hfind
            | hang =>
              simp only [hwfind] at hfind
              exact Out.noConfusion hfind
            | crash =>
              simp only [hwfind] at hfind
              exact Out.noConfusion hfind
          | fail e =>
            simp only [hwalk] at hscan
            exact Out.noConfusion hscan
          | hang =>
            simp only [hwalk] at hscan
            exact Out.noConfusion hscan
          | crash =>
            simp only [hwalk] at hscan
            exact Out.noConfusion hscan

end OS8

namespace OS8

set_option maxRecDepth 8000 in
/-- Counterexample to claim C2 as stated: on an image holding two files both
named `AB`, `Remove("AB")` succeeds (rewriting only the first entry), yet a
subsequent list still reports `AB` — the claim's "list no longer reports F"
fails without a uniqueness assumption on the name. -/
theorem claim2_counterexample :
    listFS dupNameDisk 4 = Out.done [⟨("AB"), 0, 1, 3⟩, ⟨("AB"), 0, 1, 4⟩] ∧
    removeFS dupNameDisk 4 ("AB") = Out.done dupNameDisk2 ∧
    listFS dupNameDisk2 4 = Out.done [⟨("AB"), 0, 1, 4⟩] := by
  refine ⟨rfl, rfl, rfl⟩

/-- Claim C2 as amended: when `Remove` finds the entry (its directory block
`B = r.index`), the full directory scan of the original image terminates,
the matched entry's size is non-negative (its length word is a true length),
and the name matches at most one entry, then after the successful removal
(a) every block other than `B` is unchanged on disk — data blocks and other
directory blocks alike — and (b) a subsequent list returns exactly the old
listing with the removed file's entry dropped, so every other file's name,
date, size and offset are unchanged and the file is no longer reported. -/
theorem claim2_remove_local :
    ∀ (disk : Disk) (fuel : Nat) (name : String) (r : ScanRec) (disk2 : Disk)
      (recs : List ScanRec),
      BlocksWF disk →
      findChain disk (toUpperStr name) fuel 1 = Out.done (some r) →
      removeFS disk fuel name = Out.done disk2 →
      scanChain disk fuel 1 = Out.done recs →
      0 ≤ r.size →
      countNamed (toUpperStr name) (recs.filterMap fileInfoOf) ≤ 1 →
      (∀ j, j ≠ r.index → disk2.getD j [] = disk.getD j []) ∧
      listFS disk2 fuel = Out.done
        ((recs.filterMap fileInfoOf).filter (fun fi => fi.name ≠ toUpperStr name)) := by
  intro disk fuel name r disk2 recs hwf hfind hrm hscan hsz huniq
  obtain ⟨hi1, hi2, hloc5, hloc6, hszf, hex⟩ := findChain_shape disk _ fuel 1 r hfind
  have hwsl : (disk.getD r.index []).length = 256 := hwf.getD_len (by omega)
  have hrw : removeFS disk fuel name = Out.done (disk.set r.index
      (removeRewrite (disk.getD r.index []) r.loc r.size)) := by
    rw [removeFS_found disk fuel name r hfind]
    exact writeBlocksFS_one _ _ _ (removeRewrite_length _ _ _ hwsl (by omega)) (by omega)
  have hd2 : disk2 = disk.set r.index
      (removeRewrite (disk.getD r.index []) r.loc r.size) := by
    rw [hrm] at hrw
    simpa using hrw
  subst hd2
  constructor
  · intro j hj
    exact getD_set_ne _ _ _ _ _ (fun he => hj he.symm)
  · obtain ⟨rs2, hscan2, hfm⟩ :=
      scan_after_remove disk (toUpperStr name) r hwf hsz fuel 1 recs hscan hfind
    simp only [listFS, hscan2]
    rw [hfm, eraseNamed_eq_filter _ _ huniq]

set_option maxRecDepth 8000 in
/-- Witness for the amended claim C2: removing `AB` from `twoFileDisk`
leaves every block but directory block 1 unchanged, and the subsequent
listing is the old one without `AB`. -/
theorem claim2_remove_local_witness :
    (∀ j, j ≠ 1 → twoFileDiskAfter.getD j [] = twoFileDisk.getD j []) ∧
    listFS twoFileDiskAfter 4 = Out.done
      (([(⟨("AB"), 0, 2, 3⟩ : FileInfo), ⟨("CD"), 0, 1, 5⟩]).filter
        (fun fi => fi.name ≠ toUpperStr ("AB"))) :=
  claim2_remove_local twoFileDisk 4 ("AB") ⟨1, 5, 3, 2, some (("AB"), 0)⟩ twoFileDiskAfter
    [⟨1, 5, 3, 2, some (("AB"), 0)⟩, ⟨1, 11, 5, 1, some (("CD"), 0)⟩]
    (by decide) rfl rfl rfl (by decide) (by decide)

end OS8
